import Mathlib

/-!
Verification of the firework core (fireworks/core/firework.py): the task
contract (FireTaskBase), the action record (FWAction), the workflow step
(FireWork) and the launch record (Launch), together with their
serialization to a transport-neutral nested mapping.

Machine integers and datetimes are modelled as `Int` (timestamps in
seconds); Python dicts are association lists with first-occurrence lookup
and in-place replacement, which matches insertion-ordered dicts with
unique keys; fallible constructors return `Except`, fallible
deserializers return `Option`.
-/

/-- A transport-neutral nested value: the payloads stored in specs,
stored data and mod specs, and the output of every to_dict. -/
inductive Value where
  | null : Value
  | str : String → Value
  | int : Int → Value
  | time : Int → Value
  | list : List Value → Value
  | dict : List (String × Value) → Value

/-- Python dict lookup `d[k]` / `d.get(k)`: first matching key. -/
def getKey {β : Type} (k : String) : List (String × β) → Option β
  | [] => none
  | (k', v) :: rest => if k' = k then some v else getKey k rest

/-- Python dict assignment `d[k] = v`: replace the first occurrence in
place, or append a fresh key at the end. -/
def setKey {β : Type} (k : String) (v : β) : List (String × β) → List (String × β)
  | [] => [(k, v)]
  | (k', v') :: rest => if k' = k then (k, v) :: rest else (k', v') :: setKey k v rest

/-- One entry of a launch state history: `{state, created_at, updated_at}`. -/
structure HistEntry where
  state : String
  created_at : Int
  updated_at : Int

/-- FireTaskBase: the abstract task, holding only its parameters dict. -/
structure FireTask where
  parameters : List (String × Value)

/-- Modelled from the spec: the opaque Worker descriptor (FWorker) is an
external collaborator with its own serialization pair (fworker.py is not
part of the analysed core); it carries opaque mapping data. -/
structure FWorker where
  data : List (String × Value)

/-- Modelled from the spec: host/IP resolution (get_my_host, get_my_ip)
is an external collaborator interface returning strings; the environment
supplies both values. -/
structure Env where
  myHost : String
  myIp : String

/-- FireWork.STATE_RANKS: the shared state vocabulary with its rank. -/
def STATE_RANKS : List (String × Nat) :=
  [("DEFUSED", 0), ("WAITING", 1), ("READY", 2), ("FIZZLED", 3), ("RESERVED", 4),
   ("RUNNING", 5), ("CANCELED", 6), ("COMPLETED", 7)]

/-- Membership test `state in FireWork.STATE_RANKS` (dict key membership). -/
def stateRanksContains (s : String) : Bool :=
  (STATE_RANKS.map Prod.fst).contains s

/-- FWAction.commands: the fixed command vocabulary. -/
def commands : List String :=
  ["CONTINUE", "DEFUSE", "MODIFY", "DETOUR", "CREATE", "PHOENIX", "BREAK"]

mutual
/-- A value stored in a mod_spec: plain data, or (under the reserved
create_fw key) a live workflow step. -/
inductive MSVal where
  | plain : Value → MSVal
  | fw : FireWork → MSVal

/-- FWAction object state: command, stored_data, mod_spec. -/
inductive FWAction where
  | mk : String → List (String × Value) → List (String × MSVal) → FWAction

/-- FireWork object state: tasks, spec, fw_id, launches, state, created_at. -/
inductive FireWork where
  | mk : List FireTask → List (String × Value) → Int → List Launch → String → Int → FireWork

/-- Launch object state: state, launch_dir, fworker, host, ip, action,
state_history, launch_id, fw_id. -/
inductive Launch where
  | mk : String → String → Option FWorker → String → String → Option FWAction →
         List HistEntry → Option Int → Option Int → Launch
end

def FWAction.command : FWAction → String
  | .mk c _ _ => c

def FWAction.stored_data : FWAction → List (String × Value)
  | .mk _ sd _ => sd

def FWAction.mod_spec : FWAction → List (String × MSVal)
  | .mk _ _ ms => ms

def FireWork.tasks : FireWork → List FireTask
  | .mk t _ _ _ _ _ => t

def FireWork.spec : FireWork → List (String × Value)
  | .mk _ s _ _ _ _ => s

def FireWork.fw_id : FireWork → Int
  | .mk _ _ i _ _ _ => i

def FireWork.launches : FireWork → List Launch
  | .mk _ _ _ l _ _ => l

def FireWork.state : FireWork → String
  | .mk _ _ _ _ s _ => s

def FireWork.created_at : FireWork → Int
  | .mk _ _ _ _ _ c => c

def Launch.state : Launch → String
  | .mk s _ _ _ _ _ _ _ _ => s

def Launch.launch_dir : Launch → String
  | .mk _ d _ _ _ _ _ _ _ => d

def Launch.fworker : Launch → Option FWorker
  | .mk _ _ w _ _ _ _ _ _ => w

def Launch.host : Launch → String
  | .mk _ _ _ h _ _ _ _ _ => h

def Launch.ip : Launch → String
  | .mk _ _ _ _ i _ _ _ _ => i

def Launch.action : Launch → Option FWAction
  | .mk _ _ _ _ _ a _ _ _ => a

def Launch.state_history : Launch → List HistEntry
  | .mk _ _ _ _ _ _ h _ _ => h

def Launch.launch_id : Launch → Option Int
  | .mk _ _ _ _ _ _ _ l _ => l

def Launch.fw_id : Launch → Option Int
  | .mk _ _ _ _ _ _ _ _ f => f

/-- FWAction.__init__: validate the command first, then establish the
object state, coalescing absent stored_data and mod_spec to empty dicts. -/
def FWAction_init (command : String) (stored_data : Option (List (String × Value)))
    (mod_spec : Option (List (String × MSVal))) : Except String FWAction :=
  if commands.contains command then
    Except.ok (FWAction.mk command (stored_data.getD []) (mod_spec.getD []))
  else
    Except.error ("Invalid command: " ++ command)

/-- The tasks argument of FireWork.__init__: a single task is coerced
into a one-element list. -/
inductive TasksArg where
  | single : FireTask → TasksArg
  | many : List FireTask → TasksArg

/-- FireTaskBase.to_dict plus serialize_fw. Modelled from the spec for the
serialize_fw / registry part (fw_serializers.py is not part of the
analysed core): the task mapping carries its parameters and the type
discriminator used by the closed registry. -/
def FireTask.to_dict (t : FireTask) : Value :=
  Value.dict [("_fw_name", Value.str "FireTaskBase"), ("parameters", Value.dict t.parameters)]

/-- FireTaskBase.from_dict via the registry. Modelled from the spec for
the registry dispatch (fw_serializers.py is not part of the analysed
core): a mapping whose discriminator resolves to FireTaskBase is rebuilt
from its parameters; the constructor coalesces an empty parameters dict. -/
def FireTask.from_dict (v : Value) : Option FireTask :=
  match v with
  | Value.dict d =>
    match getKey "_fw_name" d, getKey "parameters" d with
    | some (Value.str n), some (Value.dict p) =>
      if n = "FireTaskBase" then some { parameters := p } else none
    | _, _ => none
  | _ => none

/-- Serialization of a task list, as stored under the reserved spec key. -/
def tasksSer (ts : List FireTask) : Value :=
  Value.list (ts.map FireTask.to_dict)

/-- FireWork.__init__: coerce a single task to a list, coalesce spec and
launches and created_at, and inject the serialized tasks into the spec
under the reserved key. -/
def FireWork_init (now : Int) (tasks : TasksArg) (spec : Option (List (String × Value)))
    (fw_id : Int) (launches : Option (List Launch)) (state : String)
    (created_at : Option Int) : FireWork :=
  let ts := match tasks with
    | TasksArg.single t => [t]
    | TasksArg.many l => l
  let spec0 := spec.getD []
  let spec1 := setKey "_tasks" (tasksSer ts) spec0
  FireWork.mk ts spec1 fw_id (launches.getD []) state (created_at.getD now)

/-- Launch._update_state_history: append a fresh entry (created_at =
updated_at = now) only when the new state differs from the last recorded
state. -/
def updateStateHistory (now : Int) (state : String) (hist : List HistEntry) : List HistEntry :=
  match hist.getLast? with
  | some e => if state = e.state then hist else hist ++ [⟨state, now, now⟩]
  | none => hist ++ [⟨state, now, now⟩]

/-- The Launch.state setter: store the new state and update the history. -/
def Launch.setState (now : Int) (value : String) : Launch → Launch
  | .mk _ d w h i a hist lid fid =>
    Launch.mk value d w h i a (updateStateHistory now value hist) lid fid

/-- Launch.__init__: validate the state against the shared vocabulary,
resolve host/ip from the environment when absent or empty (Python
falsiness), coalesce the optional history, and run the state setter. -/
def Launch_init (env : Env) (now : Int) (state : String) (launch_dir : String)
    (fworker : Option FWorker) (host ip : Option String) (action : Option FWAction)
    (state_history : Option (List HistEntry)) (launch_id fw_id : Option Int) :
    Except String Launch :=
  if stateRanksContains state then
    let host' := match host with
      | some h => if h = "" then env.myHost else h
      | none => env.myHost
    let ip' := match ip with
      | some i => if i = "" then env.myIp else i
      | none => env.myIp
    let hist0 := state_history.getD []
    Except.ok (Launch.setState now state
      (Launch.mk state launch_dir fworker host' ip' action hist0 launch_id fw_id))
  else
    Except.error ("Invalid launch state: " ++ state)

/-- Launch.touch_history: overwrite the last history entry's updated_at;
indexing `[-1]` fails on an empty history. -/
def setLastUpdated (now : Int) : List HistEntry → List HistEntry
  | [] => []
  | [e] => [{ e with updated_at := now }]
  | e :: rest => e :: setLastUpdated now rest

def Launch.touch_history (now : Int) : Launch → Option Launch
  | .mk s d w h i a hist lid fid =>
    match hist with
    | [] => none
    | _ => some (Launch.mk s d w h i a (setLastUpdated now hist) lid fid)

/-- Launch._get_time: scan the history in order for the first entry in
one of the given states, returning its updated_at or created_at. -/
def Launch.get_time (states : List String) (use_update_time : Bool) (l : Launch) : Option Int :=
  match l.state_history.find? (fun e => states.contains e.state) with
  | some e => some (if use_update_time then e.updated_at else e.created_at)
  | none => none

def Launch.time_start (l : Launch) : Option Int :=
  l.get_time ["RUNNING"] false

def Launch.time_end (l : Launch) : Option Int :=
  l.get_time ["COMPLETED", "FIZZLED"] false

def Launch.time_reserved (l : Launch) : Option Int :=
  l.get_time ["RESERVED"] false

def Launch.time_ready (l : Launch) : Option Int :=
  l.get_time ["READY"] false

def Launch.last_pinged (l : Launch) : Option Int :=
  l.get_time ["RUNNING"] true

def Launch.runtime_secs (l : Launch) : Option Int :=
  match l.time_start, l.time_end with
  | some s, some e => some (e - s)
  | _, _ => none

def Launch.queuedtime_secs (now : Int) (l : Launch) : Option Int :=
  match l.time_reserved with
  | some s => some ((l.time_start.getD now) - s)
  | none => none

mutual
/-- A structural size of a value, used as deserialization fuel: every
proper subvalue has a strictly smaller size. -/
def Value.fsize : Value → Nat
  | .null => 1
  | .str _ => 1
  | .int _ => 1
  | .time _ => 1
  | .list vs => vlistSize vs + 1
  | .dict d => vdictSize d + 1

def vlistSize : List Value → Nat
  | [] => 1
  | v :: rest => v.fsize + vlistSize rest + 1

def vdictSize : List (String × Value) → Nat
  | [] => 1
  | (_, v) :: rest => v.fsize + vdictSize rest + 1
end

/-- Serialization of one history entry inside a launch mapping. -/
def HistEntry.toValue (e : HistEntry) : Value :=
  Value.dict [("state", Value.str e.state), ("created_at", Value.time e.created_at),
    ("updated_at", Value.time e.updated_at)]

/-- Deserialization of one history entry. -/
def HistEntry.fromValue (v : Value) : Option HistEntry :=
  match v with
  | Value.dict d =>
    match getKey "state" d, getKey "created_at" d, getKey "updated_at" d with
    | some (Value.str s), some (Value.time c), some (Value.time u) => some ⟨s, c, u⟩
    | _, _, _ => none
  | _ => none

/-- Modelled from the spec: serialization of the opaque Worker descriptor
(an absent worker serializes to null). -/
def fworkerToValue : Option FWorker → Value
  | some w => Value.dict w.data
  | none => Value.null

/-- Modelled from the spec: FWorker.from_dict, the other half of the
Worker descriptor serialization pair. -/
def fworkerFromValue : Value → Option (Option FWorker)
  | Value.null => some none
  | Value.dict d => some (some ⟨d⟩)
  | _ => none

def optIntToValue : Option Int → Value
  | some i => Value.int i
  | none => Value.null

def optIntFromValue : Value → Option (Option Int)
  | Value.null => some none
  | Value.int i => some (some i)
  | _ => none

mutual
/-- recursive_serialize on a mod_spec value: plain data passes through,
an embedded workflow step is serialized to its mapping. -/
def MSVal.ser : MSVal → Value
  | .plain v => v
  | .fw f => FireWork.to_dict f

def modSpecSer : List (String × MSVal) → List (String × Value)
  | [] => []
  | (k, v) :: rest => (k, v.ser) :: modSpecSer rest

/-- FWAction.to_dict: `{action, stored_data, mod_spec}`. -/
def FWAction.to_dict : FWAction → Value
  | .mk c sd ms =>
    Value.dict [("action", Value.str c), ("stored_data", Value.dict sd),
      ("mod_spec", Value.dict (modSpecSer ms))]

/-- FireWork.to_dict: spec, fw_id and created_at always; launches only
when non-empty; state only when not WAITING. -/
def FireWork.to_dict : FireWork → Value
  | .mk _tasks spec fw_id launches state created_at =>
    Value.dict ([("spec", Value.dict spec), ("fw_id", Value.int fw_id),
        ("created_at", Value.time created_at)]
      ++ (if launches.length > 0 then [("launches", Value.list (launchesSer launches))] else [])
      ++ (if state ≠ "WAITING" then [("state", Value.str state)] else []))

def launchesSer : List Launch → List Value
  | [] => []
  | l :: rest => Launch.to_dict l :: launchesSer rest

/-- Launch.to_dict: all launch fields, history entries as mappings. -/
def Launch.to_dict : Launch → Value
  | .mk state launch_dir fworker host ip action hist launch_id fw_id =>
    Value.dict [("fworker", fworkerToValue fworker),
      ("fw_id", optIntToValue fw_id),
      ("launch_dir", Value.str launch_dir),
      ("host", Value.str host), ("ip", Value.str ip),
      ("action", match action with | some a => FWAction.to_dict a | none => Value.null),
      ("state", Value.str state),
      ("state_history", Value.list (hist.map HistEntry.toValue)),
      ("launch_id", optIntToValue launch_id)]
end

/-- FireWork.to_db_dict: the storage form replaces launches by their ids
and always stores the state. -/
def FireWork.to_db_dict (f : FireWork) : Value :=
  match f.to_dict with
  | Value.dict d =>
    Value.dict (setKey "state" (Value.str f.state)
      (setKey "launches" (Value.list (f.launches.map (fun l => optIntToValue l.launch_id))) d))
  | v => v

/-- Launch.to_db_dict: the storage form adds the derived runtime_secs. -/
def Launch.to_db_dict (l : Launch) : Value :=
  match l.to_dict with
  | Value.dict d => Value.dict (setKey "runtime_secs" (optIntToValue l.runtime_secs) d)
  | v => v

def tasksFromValues : List Value → Option (List FireTask)
  | [] => some []
  | v :: rest =>
    match FireTask.from_dict v, tasksFromValues rest with
    | some t, some ts => some (t :: ts)
    | _, _ => none

def histFromValues : List Value → Option (List HistEntry)
  | [] => some []
  | v :: rest =>
    match HistEntry.fromValue v, histFromValues rest with
    | some e, some es => some (e :: es)
    | _, _ => none

/-- FireWork.from_dict reads fw_id with default -1. -/
def parseFwId (d : List (String × Value)) : Option Int :=
  match getKey "fw_id" d with
  | none => some (-1)
  | some (Value.int i) => some i
  | some _ => none

/-- FireWork.from_dict reads state with default WAITING. -/
def parseState (d : List (String × Value)) : Option String :=
  match getKey "state" d with
  | none => some "WAITING"
  | some (Value.str s) => some s
  | some _ => none

/-- FireWork.from_dict reads created_at with default None. -/
def parseCreatedAt (d : List (String × Value)) : Option (Option Int) :=
  match getKey "created_at" d with
  | none => some none
  | some (Value.time t) => some (some t)
  | some _ => none

mutual
/-- FWAction.from_dict (fuel-indexed): if mod_spec holds the reserved
create_fw key, deserialize its value as a full workflow step before
constructing the action; otherwise carry mod_spec through as plain data. -/
def FWAction.fromDictF (env : Env) (now : Int) : Nat → Value → Option FWAction
  | 0, _ => none
  | _ + 1, Value.null => none
  | _ + 1, Value.str _ => none
  | _ + 1, Value.int _ => none
  | _ + 1, Value.time _ => none
  | _ + 1, Value.list _ => none
  | fuel + 1, Value.dict d =>
    match getKey "action" d, getKey "stored_data" d, getKey "mod_spec" d with
    | some (Value.str cmd), some (Value.dict sd), some (Value.dict ms) =>
      let plainMS := ms.map (fun p => (p.1, MSVal.plain p.2))
      match getKey "create_fw" ms with
      | some cv =>
        match FireWork.fromDictF env now fuel cv with
        | some f =>
          (FWAction_init cmd (some sd) (some (setKey "create_fw" (MSVal.fw f) plainMS))).toOption
        | none => none
      | none => (FWAction_init cmd (some sd) (some plainMS)).toOption
    | _, _, _ => none

/-- FireWork.from_dict (fuel-indexed): tasks are read back from the
reserved spec key, launches (when present and non-empty) are deserialized
one by one, and the constructor re-establishes the spec invariant. -/
def FireWork.fromDictF (env : Env) (now : Int) : Nat → Value → Option FireWork
  | 0, _ => none
  | _ + 1, Value.null => none
  | _ + 1, Value.str _ => none
  | _ + 1, Value.int _ => none
  | _ + 1, Value.time _ => none
  | _ + 1, Value.list _ => none
  | fuel + 1, Value.dict d =>
    match getKey "spec" d with
    | some (Value.dict specd) =>
      match getKey "_tasks" specd with
      | some (Value.list tl) =>
        match tasksFromValues tl, parseFwId d, parseState d, parseCreatedAt d with
        | some tasks, some fid, some st, some cat =>
          match getKey "launches" d with
          | none =>
            some (FireWork_init now (TasksArg.many tasks) (some specd) fid none st cat)
          | some Value.null =>
            some (FireWork_init now (TasksArg.many tasks) (some specd) fid none st cat)
          | some (Value.list []) =>
            some (FireWork_init now (TasksArg.many tasks) (some specd) fid (some []) st cat)
          | some (Value.list (lv :: lvs)) =>
            match launchListF env now fuel (lv :: lvs) with
            | some laun =>
              some (FireWork_init now (TasksArg.many tasks) (some specd) fid (some laun) st cat)
            | none => none
          | some _ => none
        | _, _, _, _ => none
      | _ => none
    | _ => none

def launchListF (env : Env) (now : Int) : Nat → List Value → Option (List Launch)
  | 0, _ => none
  | _ + 1, [] => some []
  | fuel + 1, v :: vs =>
    match Launch.fromDictF env now fuel v, launchListF env now fuel vs with
    | some l, some ls => some (l :: ls)
    | _, _ => none

/-- Launch.from_dict (fuel-indexed): rebuild the worker and the optional
action, then go through the constructor (which re-validates the state and
re-runs the state setter). -/
def Launch.fromDictF (env : Env) (now : Int) : Nat → Value → Option Launch
  | 0, _ => none
  | _ + 1, Value.null => none
  | _ + 1, Value.str _ => none
  | _ + 1, Value.int _ => none
  | _ + 1, Value.time _ => none
  | _ + 1, Value.list _ => none
  | fuel + 1, Value.dict d =>
    match getKey "state" d, getKey "launch_dir" d, getKey "host" d, getKey "ip" d with
    | some (Value.str st), some (Value.str ld), some (Value.str h), some (Value.str i) =>
      match getKey "fworker" d, getKey "state_history" d, getKey "launch_id" d,
          getKey "fw_id" d with
      | some wv, some (Value.list hv), some liv, some fiv =>
        match fworkerFromValue wv, histFromValues hv, optIntFromValue liv,
            optIntFromValue fiv with
        | some fwk, some hist, some lid, some fid =>
          match getKey "action" d with
          | some Value.null =>
            (Launch_init env now st ld fwk (some h) (some i) none (some hist) lid fid).toOption
          | none =>
            (Launch_init env now st ld fwk (some h) (some i) none (some hist) lid fid).toOption
          | some av =>
            match FWAction.fromDictF env now fuel av with
            | some a =>
              (Launch_init env now st ld fwk (some h) (some i) (some a) (some hist) lid
                fid).toOption
            | none => none
        | _, _, _, _ => none
      | _, _, _, _ => none
    | _, _, _, _ => none
end

def FWAction.from_dict (env : Env) (now : Int) (v : Value) : Option FWAction :=
  FWAction.fromDictF env now v.fsize v

def FireWork.from_dict (env : Env) (now : Int) (v : Value) : Option FireWork :=
  FireWork.fromDictF env now v.fsize v

def Launch.from_dict (env : Env) (now : Int) (v : Value) : Option Launch :=
  Launch.fromDictF env now v.fsize v

mutual
/-- Well-formed action record, as established by the constructor and the
data model: a vocabulary command, a mod_spec with unique keys whose only
embedded workflow step sits under the reserved create_fw key. -/
def FWAction.wf (env : Env) : FWAction → Prop
  | .mk c _ ms => c ∈ commands ∧ (ms.map Prod.fst).Nodup ∧ modSpecWF env ms

def modSpecWF (env : Env) : List (String × MSVal) → Prop
  | [] => True
  | (k, v) :: rest =>
    (match v with
     | .plain _ => k ≠ "create_fw"
     | .fw f => k = "create_fw" ∧ FireWork.wf env f) ∧ modSpecWF env rest

/-- Well-formed workflow step: the reserved spec key holds the serialized
tasks (established by the constructor) and all launches are well formed. -/
def FireWork.wf (env : Env) : FireWork → Prop
  | .mk tasks spec _ launches _ _ =>
    getKey "_tasks" spec = some (tasksSer tasks) ∧ launchesWF env launches

def launchesWF (env : Env) : List Launch → Prop
  | [] => True
  | l :: rest => Launch.wf env l ∧ launchesWF env rest

/-- Well-formed launch record: a vocabulary state, a history whose last
entry carries the current state (established by the constructor), host/ip
consistent with the resolving environment, and a well-formed action. -/
def Launch.wf (env : Env) : Launch → Prop
  | .mk state _ _ host ip action hist _ _ =>
    stateRanksContains state = true ∧
    hist.getLast?.map HistEntry.state = some state ∧
    (host = "" → env.myHost = "") ∧ (ip = "" → env.myIp = "") ∧
    (match action with
     | none => True
     | some a => FWAction.wf env a)
end

theorem getKey_setKey_self {β : Type} (k : String) (v : β) :
    ∀ l : List (String × β), getKey k (setKey k v l) = some v := by
  intro l
  induction l with
  | nil => simp [getKey, setKey]
  | cons p rest ih =>
    by_cases h : p.1 = k
    · simp [getKey, setKey, h]
    · obtain ⟨k', v'⟩ := p
      simp only at h
      simp [getKey, setKey, h, ih]

theorem getKey_setKey_ne {β : Type} {k k' : String} (hne : k' ≠ k) (v : β) :
    ∀ l : List (String × β), getKey k (setKey k' v l) = getKey k l := by
  intro l
  induction l with
  | nil => simp [getKey, setKey, hne]
  | cons p rest ih =>
    obtain ⟨k'', v''⟩ := p
    by_cases h : k'' = k'
    · subst h
      simp [getKey, setKey, hne]
    · simp [getKey, setKey, h, ih]

theorem setKey_getKey_self {β : Type} {k : String} {v : β} :
    ∀ {l : List (String × β)}, getKey k l = some v → setKey k v l = l := by
  intro l
  induction l with
  | nil => simp [getKey]
  | cons p rest ih =>
    obtain ⟨k', v'⟩ := p
    by_cases h : k' = k
    · subst h
      simp [getKey, setKey]
      intro hv
      exact hv.symm
    · simp [getKey, setKey, h]
      exact ih

theorem getKey_mem {β : Type} {k : String} {v : β} :
    ∀ {l : List (String × β)}, getKey k l = some v → (k, v) ∈ l := by
  intro l
  induction l with
  | nil => simp [getKey]
  | cons p rest ih =>
    obtain ⟨k', v'⟩ := p
    by_cases h : k' = k
    · subst h
      simp [getKey]
      intro hv
      exact Or.inl hv.symm
    · simp [getKey, h]
      intro hg
      exact Or.inr (ih hg)

theorem fsize_pos (v : Value) : 1 ≤ v.fsize := by
  cases v <;> simp [Value.fsize]

theorem getKey_fsize {k : String} {v : Value} :
    ∀ {d : List (String × Value)}, getKey k d = some v → v.fsize < vdictSize d := by
  intro d
  induction d with
  | nil => simp [getKey]
  | cons p rest ih =>
    obtain ⟨k', v'⟩ := p
    by_cases h : k' = k
    · subst h
      simp [getKey, vdictSize]
      intro hv
      subst hv
      omega
    · simp [getKey, h, vdictSize]
      intro hg
      have := ih hg
      omega

theorem updateStateHistory_ne_nil (now : Int) (s : String) (hist : List HistEntry) :
    updateStateHistory now s hist ≠ [] := by
  unfold updateStateHistory
  match h : hist.getLast? with
  | some e =>
    by_cases hs : s = e.state
    · simp [hs]
      intro hn
      subst hn
      simp at h
    · simp [hs]
  | none => simp

theorem updateStateHistory_last (now : Int) (s : String) (hist : List HistEntry) :
    (updateStateHistory now s hist).getLast?.map HistEntry.state = some s := by
  unfold updateStateHistory
  match h : hist.getLast? with
  | some e =>
    by_cases hs : s = e.state
    · simp [hs, h]
    · simp [hs, List.getLast?_concat]
  | none => simp [List.getLast?_concat]

theorem updateStateHistory_self {s : String} {hist : List HistEntry}
    (h : hist.getLast?.map HistEntry.state = some s) (now : Int) :
    updateStateHistory now s hist = hist := by
  unfold updateStateHistory
  match hg : hist.getLast? with
  | some e =>
    rw [hg] at h
    simp at h
    simp [h]
  | none => rw [hg] at h; simp at h

theorem updateStateHistory_chain (now : Int) (s : String) {hist : List HistEntry}
    (h : List.Chain' (fun p q => p.state ≠ q.state) hist) :
    List.Chain' (fun p q => p.state ≠ q.state) (updateStateHistory now s hist) := by
  unfold updateStateHistory
  match hg : hist.getLast? with
  | some e =>
    by_cases hs : s = e.state
    · simpa [hs]
    · simp [hs]
      rw [List.chain'_append]
      refine ⟨h, List.chain'_singleton _, ?_⟩
      intro x hx y hy
      rw [hg] at hx
      simp at hx hy
      subst hx
      subst hy
      simp
      intro hxe
      exact hs hxe.symm
  | none =>
    have : hist = [] := by
      cases hist with
      | nil => rfl
      | cons a t => simp [List.getLast?_concat] at hg
    subst this
    simp

theorem firetask_roundtrip (t : FireTask) : FireTask.from_dict (FireTask.to_dict t) = some t :=
  rfl

theorem tasksFromValues_roundtrip : ∀ ts : List FireTask,
    tasksFromValues (ts.map FireTask.to_dict) = some ts := by
  intro ts
  induction ts with
  | nil => rfl
  | cons t rest ih => simp [tasksFromValues, firetask_roundtrip t, ih]

theorem histentry_roundtrip (e : HistEntry) : HistEntry.fromValue (HistEntry.toValue e) = some e :=
  rfl

theorem histFromValues_roundtrip : ∀ hs : List HistEntry,
    histFromValues (hs.map HistEntry.toValue) = some hs := by
  intro hs
  induction hs with
  | nil => rfl
  | cons e rest ih => simp [histFromValues, histentry_roundtrip e, ih]

theorem fworker_roundtrip (w : Option FWorker) : fworkerFromValue (fworkerToValue w) = some w := by
  cases w <;> rfl

theorem optInt_roundtrip (i : Option Int) : optIntFromValue (optIntToValue i) = some i := by
  cases i <;> rfl

theorem getKey_modSpecSer (k : String) : ∀ ms : List (String × MSVal),
    getKey k (modSpecSer ms) = (getKey k ms).map MSVal.ser := by
  intro ms
  induction ms with
  | nil => rfl
  | cons p rest ih =>
    obtain ⟨k', v⟩ := p
    by_cases h : k' = k <;> simp [modSpecSer, getKey, h, ih]

theorem modSpecWF_no_create_fw {env : Env} : ∀ {ms : List (String × MSVal)},
    modSpecWF env ms → getKey "create_fw" ms = none →
    ms.map (fun p => (p.1, MSVal.plain p.2.ser)) = ms := by
  intro ms
  induction ms with
  | nil => intro _ _; rfl
  | cons p rest ih =>
    obtain ⟨k, v⟩ := p
    intro hwf hg
    unfold modSpecWF at hwf
    obtain ⟨hv, hrest⟩ := hwf
    by_cases hk : k = "create_fw"
    · simp [getKey, hk] at hg
    · simp [getKey, hk] at hg
      cases v with
      | plain pv => simp [MSVal.ser, ih hrest hg]
      | fw f => simp at hv; exact absurd hv.1 hk

theorem modSpecWF_create_fw {env : Env} : ∀ {ms : List (String × MSVal)} {v : MSVal},
    modSpecWF env ms → getKey "create_fw" ms = some v →
    ∃ f, v = MSVal.fw f ∧ FireWork.wf env f := by
  intro ms
  induction ms with
  | nil => intro v _ hg; simp [getKey] at hg
  | cons p rest ih =>
    obtain ⟨k, mv⟩ := p
    intro v hwf hg
    unfold modSpecWF at hwf
    obtain ⟨hv, hrest⟩ := hwf
    by_cases hk : k = "create_fw"
    · subst hk
      simp [getKey] at hg
      subst hg
      cases mv with
      | plain pv => simp at hv
      | fw f => exact ⟨f, rfl, hv.2⟩
    · simp [getKey, hk] at hg
      exact ih hrest hg

theorem modSpecWF_setKey_back {env : Env} : ∀ {ms : List (String × MSVal)} {f : FireWork},
    modSpecWF env ms → (ms.map Prod.fst).Nodup →
    getKey "create_fw" ms = some (MSVal.fw f) →
    setKey "create_fw" (MSVal.fw f) (ms.map (fun p => (p.1, MSVal.plain p.2.ser))) = ms := by
  intro ms
  induction ms with
  | nil => intro f _ _ hg; simp [getKey] at hg
  | cons p rest ih =>
    obtain ⟨k, mv⟩ := p
    intro f hwf hnd hg
    unfold modSpecWF at hwf
    obtain ⟨hv, hrest⟩ := hwf
    simp at hnd
    by_cases hk : k = "create_fw"
    · subst hk
      simp [getKey] at hg
      subst hg
      simp [setKey]
      have hnone : getKey "create_fw" rest = none := by
        cases hgr : getKey "create_fw" rest with
        | none => rfl
        | some w =>
          have hm := getKey_mem hgr
          exact absurd hm (hnd.1 w)
      exact modSpecWF_no_create_fw hrest hnone
    · simp [getKey, hk] at hg
      simp [setKey, hk]
      constructor
      · cases mv with
        | plain pv => simp [MSVal.ser]
        | fw g => simp at hv; exact absurd hv.1 hk
      · exact ih hrest hnd.2 hg

theorem modSpecSer_eq_map : ∀ ms : List (String × MSVal),
    modSpecSer ms = ms.map (fun p => (p.1, p.2.ser)) := by
  intro ms
  induction ms with
  | nil => rfl
  | cons p rest ih => simp [modSpecSer, ih]

theorem vlistSize_pos (vs : List Value) : 1 ≤ vlistSize vs := by
  cases vs <;> simp [vlistSize]

theorem roundtripF (env : Env) (now : Int) : ∀ fuel : Nat,
    (∀ a : FWAction, FWAction.wf env a → (FWAction.to_dict a).fsize ≤ fuel →
      FWAction.fromDictF env now fuel (FWAction.to_dict a) = some a) ∧
    (∀ f : FireWork, FireWork.wf env f → (FireWork.to_dict f).fsize ≤ fuel →
      FireWork.fromDictF env now fuel (FireWork.to_dict f) = some f) ∧
    (∀ l : Launch, Launch.wf env l → (Launch.to_dict l).fsize ≤ fuel →
      Launch.fromDictF env now fuel (Launch.to_dict l) = some l) ∧
    (∀ ls : List Launch, launchesWF env ls → vlistSize (launchesSer ls) ≤ fuel →
      launchListF env now fuel (launchesSer ls) = some ls) := by
  intro fuel
  induction fuel with
  | zero =>
    refine ⟨?_, ?_, ?_, ?_⟩
    · intro a _ hs
      have := fsize_pos (FWAction.to_dict a)
      omega
    · intro f _ hs
      have := fsize_pos (FireWork.to_dict f)
      omega
    · intro l _ hs
      have := fsize_pos (Launch.to_dict l)
      omega
    · intro ls _ hs
      have := vlistSize_pos (launchesSer ls)
      omega
  | succ fuel ih =>
    obtain ⟨ihA, ihF, ihL, ihLs⟩ := ih
    refine ⟨?_, ?_, ?_, ?_⟩
    · -- action records
      intro a hwf hs
      cases a with
      | mk c sd ms =>
        unfold FWAction.wf at hwf
        obtain ⟨hc, hnd, hms⟩ := hwf
        have hcc : commands.contains c = true := List.elem_iff.mpr hc
        simp only [FWAction.to_dict] at hs ⊢
        cases hcf : getKey "create_fw" ms with
        | none =>
          have h1 : getKey "create_fw" (modSpecSer ms) = none := by
            rw [getKey_modSpecSer, hcf]; rfl
          have h2 : (modSpecSer ms).map (fun p => (p.1, MSVal.plain p.2)) = ms := by
            rw [modSpecSer_eq_map, List.map_map]
            simpa using modSpecWF_no_create_fw hms hcf
          simp [FWAction.fromDictF, getKey, h1, h2, FWAction_init, hcc, hc, Except.toOption]
        | some v =>
          obtain ⟨f, rfl, hwff⟩ := modSpecWF_create_fw hms hcf
          have h1 : getKey "create_fw" (modSpecSer ms) = some (FireWork.to_dict f) := by
            rw [getKey_modSpecSer, hcf]; rfl
          have hszf : (FireWork.to_dict f).fsize ≤ fuel := by
            have h2 := getKey_fsize h1
            simp only [Value.fsize, vdictSize] at hs
            omega
          have h3 := ihF f hwff hszf
          have h4 : setKey "create_fw" (MSVal.fw f)
              ((modSpecSer ms).map (fun p => (p.1, MSVal.plain p.2))) = ms := by
            rw [modSpecSer_eq_map, List.map_map]
            simpa using modSpecWF_setKey_back hms hnd hcf
          simp [FWAction.fromDictF, getKey, h1, h3, h4, FWAction_init, hcc, hc, Except.toOption]
    · -- workflow steps
      intro f hwf hs
      cases f with
      | mk tasks spec fid ls st cat =>
        unfold FireWork.wf at hwf
        obtain ⟨hts, hls⟩ := hwf
        simp only [tasksSer] at hts
        simp only [FireWork.to_dict] at hs ⊢
        rcases ls with _ | ⟨l, rest⟩
        · by_cases hst : st = "WAITING"
          · subst hst
            simp [FireWork.fromDictF, getKey, hts, tasksSer, tasksFromValues_roundtrip,
              parseFwId, parseState, parseCreatedAt, FireWork_init,
              setKey_getKey_self hts]
          · simp [FireWork.fromDictF, getKey, hst, hts, tasksSer, tasksFromValues_roundtrip,
              parseFwId, parseState, parseCreatedAt, FireWork_init,
              setKey_getKey_self hts]
        · have hser : launchesSer (l :: rest) = Launch.to_dict l :: launchesSer rest := rfl
          have hsz : vlistSize (launchesSer (l :: rest)) ≤ fuel := by
            rw [hser]
            by_cases hst : st = "WAITING"
            · subst hst
              simp [Value.fsize, vdictSize, vlistSize, launchesSer] at hs
              simp only [vlistSize]
              omega
            · simp [Value.fsize, vdictSize, vlistSize, launchesSer, hst] at hs
              simp only [vlistSize]
              omega
          have hLs := ihLs (l :: rest) hls hsz
          rw [hser] at hLs
          by_cases hst : st = "WAITING"
          · subst hst
            simp [FireWork.fromDictF, getKey, hts, tasksSer, tasksFromValues_roundtrip,
              parseFwId, parseState, parseCreatedAt, FireWork_init,
              setKey_getKey_self hts, hser, hLs]
          · simp [FireWork.fromDictF, getKey, hst, hts, tasksSer, tasksFromValues_roundtrip,
              parseFwId, parseState, parseCreatedAt, FireWork_init,
              setKey_getKey_self hts, hser, hLs]
    · -- launch records
      intro l hwf hs
      cases l with
      | mk st ld fwk h i act hist lid fid =>
        cases act with
        | none =>
          unfold Launch.wf at hwf
          obtain ⟨hstate, hlast, hhost, hip, -⟩ := hwf
          simp only [Launch.to_dict] at hs ⊢
          have husH := updateStateHistory_self hlast now
          by_cases hh : h = "" <;> by_cases hi : i = ""
          · have hh2 := hhost hh
            have hi2 := hip hi
            subst hh; subst hi
            simp [Launch.fromDictF, getKey, fworker_roundtrip, histFromValues_roundtrip,
              optInt_roundtrip, Launch_init, hstate, Launch.setState, husH,
              Except.toOption, hh2, hi2]
          · have hh2 := hhost hh
            subst hh
            simp [Launch.fromDictF, getKey, fworker_roundtrip, histFromValues_roundtrip,
              optInt_roundtrip, Launch_init, hstate, Launch.setState, husH,
              Except.toOption, hh2, hi]
          · have hi2 := hip hi
            subst hi
            simp [Launch.fromDictF, getKey, fworker_roundtrip, histFromValues_roundtrip,
              optInt_roundtrip, Launch_init, hstate, Launch.setState, husH,
              Except.toOption, hh, hi2]
          · simp [Launch.fromDictF, getKey, fworker_roundtrip, histFromValues_roundtrip,
              optInt_roundtrip, Launch_init, hstate, Launch.setState, husH,
              Except.toOption, hh, hi]
        | some a =>
          unfold Launch.wf at hwf
          obtain ⟨hstate, hlast, hhost, hip, hact⟩ := hwf
          simp only [Launch.to_dict] at hs ⊢
          have husH := updateStateHistory_self hlast now
          have hsza : (FWAction.to_dict a).fsize ≤ fuel := by
            simp only [Value.fsize, vdictSize] at hs
            omega
          have hA := ihA a hact hsza
          cases a with
          | mk ca sda msa =>
            simp only [FWAction.to_dict] at hA
            by_cases hh : h = "" <;> by_cases hi : i = ""
            · have hh2 := hhost hh
              have hi2 := hip hi
              subst hh; subst hi
              simp [Launch.fromDictF, getKey, FWAction.to_dict, fworker_roundtrip,
                histFromValues_roundtrip, optInt_roundtrip, Launch_init, hstate,
                Launch.setState, husH, Except.toOption, hh2, hi2,
                hA]
            · have hh2 := hhost hh
              subst hh
              simp [Launch.fromDictF, getKey, FWAction.to_dict, fworker_roundtrip,
                histFromValues_roundtrip, optInt_roundtrip, Launch_init, hstate,
                Launch.setState, husH, Except.toOption, hh2, hi, hA]
            · have hi2 := hip hi
              subst hi
              simp [Launch.fromDictF, getKey, FWAction.to_dict, fworker_roundtrip,
                histFromValues_roundtrip, optInt_roundtrip, Launch_init, hstate,
                Launch.setState, husH, Except.toOption, hh, hi2, hA]
            · simp [Launch.fromDictF, getKey, FWAction.to_dict, fworker_roundtrip,
                histFromValues_roundtrip, optInt_roundtrip, Launch_init, hstate,
                Launch.setState, husH, Except.toOption, hh, hi, hA]
    · -- launch lists
      intro ls hwf hsz
      cases ls with
      | nil => simp [launchesSer, launchListF]
      | cons l rest =>
        unfold launchesWF at hwf
        obtain ⟨hl, hrest⟩ := hwf
        have hser : launchesSer (l :: rest) = Launch.to_dict l :: launchesSer rest := rfl
        rw [hser] at hsz ⊢
        simp only [vlistSize] at hsz
        have h1 : (Launch.to_dict l).fsize ≤ fuel := by omega
        have h2 : vlistSize (launchesSer rest) ≤ fuel := by omega
        simp [launchListF, ihL l hl h1, ihLs rest hrest h2]

/-- A sequence of state assignments applied through the state setter. -/
def applyStates (l : Launch) : List (Int × String) → Launch
  | [] => l
  | p :: rest => applyStates (Launch.setState p.1 p.2 l) rest

theorem setState_state_history (n : Int) (s : String) (l : Launch) :
    (Launch.setState n s l).state_history = updateStateHistory n s l.state_history := by
  cases l
  rfl

theorem setState_state (n : Int) (s : String) (l : Launch) :
    (Launch.setState n s l).state = s := by
  cases l
  rfl

theorem setState_chain (n : Int) (s : String) {l : Launch}
    (h : List.Chain' (fun p q => p.state ≠ q.state) l.state_history) :
    List.Chain' (fun p q => p.state ≠ q.state) (Launch.setState n s l).state_history := by
  rw [setState_state_history]
  exact updateStateHistory_chain n s h

theorem applyStates_chain : ∀ (seq : List (Int × String)) {l : Launch},
    List.Chain' (fun p q => p.state ≠ q.state) l.state_history →
    List.Chain' (fun p q => p.state ≠ q.state) (applyStates l seq).state_history := by
  intro seq
  induction seq with
  | nil => intro l h; exact h
  | cons p rest ih => intro l h; exact ih (setState_chain p.1 p.2 h)

/-- The constructor invariant: the last history entry carries the current
state. -/
def lastMatches (l : Launch) : Prop :=
  l.state_history.getLast?.map HistEntry.state = some l.state

theorem setState_lastMatches (n : Int) (s : String) (l : Launch) :
    lastMatches (Launch.setState n s l) := by
  unfold lastMatches
  rw [setState_state_history, setState_state]
  exact updateStateHistory_last n s l.state_history

theorem applyStates_lastMatches : ∀ (seq : List (Int × String)) {l : Launch},
    lastMatches l → lastMatches (applyStates l seq) := by
  intro seq
  induction seq with
  | nil => intro l h; exact h
  | cons p rest ih => intro l _; exact ih (setState_lastMatches p.1 p.2 l)

theorem init_ok_eq {env : Env} {now : Int} {st ld : String} {fwk : Option FWorker}
    {h i : Option String} {a : Option FWAction} {sh : Option (List HistEntry)}
    {lid fid : Option Int} {l0 : Launch}
    (hinit : Launch_init env now st ld fwk h i a sh lid fid = Except.ok l0) :
    l0.state_history = updateStateHistory now st (sh.getD []) ∧ l0.state = st := by
  unfold Launch_init at hinit
  by_cases hsr : stateRanksContains st
  · simp [hsr] at hinit
    rw [← hinit, setState_state_history, setState_state]
    exact ⟨rfl, rfl⟩
  · simp [hsr] at hinit

theorem init_lastMatches {env : Env} {now : Int} {st ld : String} {fwk : Option FWorker}
    {h i : Option String} {a : Option FWAction} {sh : Option (List HistEntry)}
    {lid fid : Option Int} {l0 : Launch}
    (hinit : Launch_init env now st ld fwk h i a sh lid fid = Except.ok l0) :
    lastMatches l0 := by
  obtain ⟨h1, h2⟩ := init_ok_eq hinit
  unfold lastMatches
  rw [h1, h2]
  exact updateStateHistory_last now st _

theorem lastMatches_ne_nil {l : Launch} (h : lastMatches l) : l.state_history ≠ [] := by
  unfold lastMatches at h
  intro hn
  rw [hn] at h
  simp at h

theorem touch_history_isSome {l : Launch} (now : Int) (h : l.state_history ≠ []) :
    (Launch.touch_history now l).isSome := by
  cases l with
  | mk s d w hh ii a hist lid fid =>
    simp only [Launch.state_history] at h
    cases hist with
    | nil => exact absurd rfl h
    | cons e rest => simp [Launch.touch_history]

theorem setLastUpdated_cons_ne_nil (now : Int) (e : HistEntry) (t : List HistEntry) :
    ∃ g u, setLastUpdated now (e :: t) = g :: u := by
  cases t <;> exact ⟨_, _, rfl⟩

theorem setLastUpdated_length (now : Int) : ∀ hist : List HistEntry,
    (setLastUpdated now hist).length = hist.length := by
  intro hist
  induction hist with
  | nil => rfl
  | cons e rest ih =>
    cases rest with
    | nil => rfl
    | cons f t =>
      rw [show setLastUpdated now (e :: f :: t) = e :: setLastUpdated now (f :: t) from rfl]
      simp only [List.length_cons, ih]

theorem setLastUpdated_getLast? (now : Int) : ∀ hist : List HistEntry,
    (setLastUpdated now hist).getLast? =
      hist.getLast?.map (fun e => { e with updated_at := now }) := by
  intro hist
  induction hist with
  | nil => rfl
  | cons e rest ih =>
    cases rest with
    | nil => rfl
    | cons f t =>
      obtain ⟨g, u, hgu⟩ := setLastUpdated_cons_ne_nil now f t
      rw [show setLastUpdated now (e :: f :: t) = e :: setLastUpdated now (f :: t) from rfl,
        hgu, List.getLast?_cons_cons, ← hgu, ih, List.getLast?_cons_cons]

theorem setLastUpdated_dropLast (now : Int) : ∀ hist : List HistEntry,
    (setLastUpdated now hist).dropLast = hist.dropLast := by
  intro hist
  induction hist with
  | nil => rfl
  | cons e rest ih =>
    cases rest with
    | nil => rfl
    | cons f t =>
      obtain ⟨g, u, hgu⟩ := setLastUpdated_cons_ne_nil now f t
      rw [show setLastUpdated now (e :: f :: t) = e :: setLastUpdated now (f :: t) from rfl,
        hgu, List.dropLast_cons₂, ← hgu, ih, List.dropLast_cons₂]

theorem firework_from_dict_on_dict (env : Env) (now : Int) (d : List (String × Value)) :
    FireWork.from_dict env now (Value.dict d) =
      FireWork.fromDictF env now (vdictSize d + 1) (Value.dict d) :=
  rfl

theorem fwaction_from_dict_on_dict (env : Env) (now : Int) (d : List (String × Value)) :
    FWAction.from_dict env now (Value.dict d) =
      FWAction.fromDictF env now (vdictSize d + 1) (Value.dict d) :=
  rfl

theorem launch_fromDictF_scalar (env : Env) (now : Int) :
    ∀ (fuel : Nat) (oi : Option Int),
      Launch.fromDictF env now fuel (optIntToValue oi) = none := by
  intro fuel oi
  cases oi <;> cases fuel <;> simp [optIntToValue, Launch.fromDictF]

theorem launchListF_scalar_head (env : Env) (now : Int) :
    ∀ (fuel : Nat) (oi : Option Int) (vs : List Value),
      launchListF env now fuel (optIntToValue oi :: vs) = none := by
  intro fuel oi vs
  cases fuel with
  | zero => simp [launchListF]
  | succ fuel => simp [launchListF, launch_fromDictF_scalar]

theorem init_spec_tasks (now : Int) (targ : TasksArg) (sp : Option (List (String × Value)))
    (fid : Int) (laun : Option (List Launch)) (st : String) (cat : Option Int) :
    getKey "_tasks" (FireWork_init now targ sp fid laun st cat).spec =
      some (tasksSer (FireWork_init now targ sp fid laun st cat).tasks) := by
  cases targ <;> simp [FireWork_init, FireWork.spec, FireWork.tasks, getKey_setKey_self]

/-- A fixed resolving environment used for concrete instances. -/
def env0 : Env := { myHost := "h0", myIp := "i0" }

/-- Claim C1: for every sequence of state assignments applied to a launch
record starting from construction (the supplied history, if any, already
alternating), no two consecutive history entries share a state, and
assigning the last recorded state again leaves the history unchanged. -/
theorem claim_C1 (env : Env) (now : Int) (st ld : String) (fwk : Option FWorker)
    (h i : Option String) (a : Option FWAction) (sh : Option (List HistEntry))
    (lid fid : Option Int) (seq : List (Int × String)) (l0 : Launch)
    (hch : List.Chain' (fun p q => p.state ≠ q.state) (sh.getD []))
    (hinit : Launch_init env now st ld fwk h i a sh lid fid = Except.ok l0) :
    List.Chain' (fun p q => p.state ≠ q.state) (applyStates l0 seq).state_history ∧
    ∀ (now' : Int) (s : String),
      ((applyStates l0 seq).state_history.getLast?).map HistEntry.state = some s →
      (Launch.setState now' s (applyStates l0 seq)).state_history =
        (applyStates l0 seq).state_history := by
  have hch0 : List.Chain' (fun p q => p.state ≠ q.state) l0.state_history := by
    obtain ⟨h1, _⟩ := init_ok_eq hinit
    rw [h1]
    exact updateStateHistory_chain now st hch
  refine ⟨applyStates_chain seq hch0, ?_⟩
  intro now' s hlast
  rw [setState_state_history]
  exact updateStateHistory_self hlast now'

def seqW : List (Int × String) := [(1, "RUNNING"), (2, "RUNNING"), (3, "COMPLETED")]

def lw1 : Launch := Launch.mk "READY" "d" none "h0" "i0" none [⟨"READY", 0, 0⟩] none none

/-- Witness for C1 at a concrete launch and assignment sequence. -/
theorem claim_C1_witness :
    List.Chain' (fun p q => p.state ≠ q.state) (applyStates lw1 seqW).state_history ∧
    ∀ (now' : Int) (s : String),
      ((applyStates lw1 seqW).state_history.getLast?).map HistEntry.state = some s →
      (Launch.setState now' s (applyStates lw1 seqW)).state_history =
        (applyStates lw1 seqW).state_history :=
  claim_C1 env0 0 "READY" "d" none none none none none none none seqW lw1 (by simp) rfl

/-- Claim C2: action record construction succeeds exactly for the seven
vocabulary commands and fails otherwise; launch record construction fails
exactly when the state is outside the shared vocabulary. The checks run
before any object state is established. -/
theorem claim_C2 (c : String) (sd : Option (List (String × Value)))
    (ms : Option (List (String × MSVal))) (env : Env) (now : Int) (st ld : String)
    (fwk : Option FWorker) (h i : Option String) (a : Option FWAction)
    (sh : Option (List HistEntry)) (lid fid : Option Int) :
    (FWAction_init c sd ms).isOk = commands.contains c ∧
    (Launch_init env now st ld fwk h i a sh lid fid).isOk = stateRanksContains st := by
  constructor
  · unfold FWAction_init
    by_cases hc : c ∈ commands <;> simp [hc, Except.isOk, Except.toBool]
  · unfold Launch_init
    by_cases hs : stateRanksContains st <;> simp [hs, Except.isOk, Except.toBool]

/-- Claim C4: on a launch whose history is READY at t0, RESERVED at t1,
RUNNING at t2, COMPLETED at t3, queuedtime_secs is t2 - t1, runtime_secs
is t3 - t2 and time_start is t2. -/
theorem claim_C4 (l : Launch) (t0 t1 t2 t3 u0 u1 u2 u3 now : Int)
    (hh : l.state_history = [⟨"READY", t0, u0⟩, ⟨"RESERVED", t1, u1⟩,
      ⟨"RUNNING", t2, u2⟩, ⟨"COMPLETED", t3, u3⟩]) :
    Launch.queuedtime_secs now l = some (t2 - t1) ∧
    l.runtime_secs = some (t3 - t2) ∧
    l.time_start = some t2 := by
  refine ⟨?_, ?_, ?_⟩ <;>
    simp [Launch.queuedtime_secs, Launch.runtime_secs, Launch.time_start, Launch.time_end,
      Launch.time_reserved, Launch.get_time, hh, List.find?]

def l4 : Launch := Launch.mk "COMPLETED" "d" none "h0" "i0" none
  [⟨"READY", 0, 0⟩, ⟨"RESERVED", 3, 3⟩, ⟨"RUNNING", 10, 10⟩, ⟨"COMPLETED", 25, 25⟩] none none

/-- Witness for C4 at a concrete launch. -/
theorem claim_C4_witness :
    Launch.queuedtime_secs 99 l4 = some 7 ∧
    l4.runtime_secs = some 15 ∧
    l4.time_start = some 10 := by
  have := claim_C4 l4 0 3 10 25 0 3 10 25 99 rfl
  simpa using this

/-- Claim C9: touching a launch without an intervening state change only
rewrites the last history entry's updated_at; length, earlier entries, the
last entry's state and created_at, and every other launch field are
unchanged. -/
theorem claim_C9 (l : Launch) (now : Int) (hne : l.state_history ≠ []) :
    ∃ l', Launch.touch_history now l = some l' ∧
      l'.state_history.length = l.state_history.length ∧
      l'.state_history.dropLast = l.state_history.dropLast ∧
      l'.state_history.getLast?.map HistEntry.state =
        l.state_history.getLast?.map HistEntry.state ∧
      l'.state_history.getLast?.map HistEntry.created_at =
        l.state_history.getLast?.map HistEntry.created_at ∧
      l'.state_history.getLast?.map HistEntry.updated_at = some now ∧
      l'.state = l.state ∧ l'.action = l.action ∧ l'.launch_dir = l.launch_dir ∧
      l'.fworker = l.fworker ∧ l'.host = l.host ∧ l'.ip = l.ip ∧
      l'.launch_id = l.launch_id ∧ l'.fw_id = l.fw_id := by
  cases l with
  | mk s d w hh ii a hist lid fid =>
    simp only [Launch.state_history] at hne
    cases hist with
    | nil => exact absurd rfl hne
    | cons e rest =>
      refine ⟨Launch.mk s d w hh ii a (setLastUpdated now (e :: rest)) lid fid, rfl, ?_⟩
      cases hg : (e :: rest).getLast? with
      | none => simp at hg
      | some g =>
        have hgl := setLastUpdated_getLast? now (e :: rest)
        rw [hg] at hgl
        simp [Launch.state_history, Launch.state, Launch.action, Launch.launch_dir,
          Launch.fworker, Launch.host, Launch.ip, Launch.launch_id, Launch.fw_id,
          setLastUpdated_length, setLastUpdated_dropLast, hg, hgl]

def lw9 : Launch := Launch.mk "RUNNING" "d" none "h0" "i0" none
  [⟨"READY", 0, 0⟩, ⟨"RUNNING", 4, 4⟩] none none

/-- Witness for C9 at a concrete launch. -/
theorem claim_C9_witness :
    ∃ l', Launch.touch_history 11 lw9 = some l' ∧
      l'.state_history.length = lw9.state_history.length ∧
      l'.state_history.dropLast = lw9.state_history.dropLast ∧
      l'.state_history.getLast?.map HistEntry.state =
        lw9.state_history.getLast?.map HistEntry.state ∧
      l'.state_history.getLast?.map HistEntry.created_at =
        lw9.state_history.getLast?.map HistEntry.created_at ∧
      l'.state_history.getLast?.map HistEntry.updated_at = some 11 ∧
      l'.state = lw9.state ∧ l'.action = lw9.action ∧ l'.launch_dir = lw9.launch_dir ∧
      l'.fworker = lw9.fworker ∧ l'.host = lw9.host ∧ l'.ip = lw9.ip ∧
      l'.launch_id = lw9.launch_id ∧ l'.fw_id = lw9.fw_id :=
  claim_C9 lw9 11 (by simp [lw9, Launch.state_history])

/-- Claim C10: after any successful construction (empty, omitted or
non-empty supplied history) followed by any sequence of state
assignments, the history is non-empty, its last entry carries the current
state, and touching the history cannot fail. -/
theorem claim_C10 (env : Env) (now : Int) (st ld : String) (fwk : Option FWorker)
    (h i : Option String) (a : Option FWAction) (sh : Option (List HistEntry))
    (lid fid : Option Int) (seq : List (Int × String)) (l0 : Launch)
    (hinit : Launch_init env now st ld fwk h i a sh lid fid = Except.ok l0) :
    (applyStates l0 seq).state_history ≠ [] ∧
    (applyStates l0 seq).state_history.getLast?.map HistEntry.state =
      some (applyStates l0 seq).state ∧
    ∀ now2 : Int, (Launch.touch_history now2 (applyStates l0 seq)).isSome := by
  have hlm : lastMatches (applyStates l0 seq) :=
    applyStates_lastMatches seq (init_lastMatches hinit)
  refine ⟨lastMatches_ne_nil hlm, hlm, ?_⟩
  intro now2
  exact touch_history_isSome now2 (lastMatches_ne_nil hlm)

/-- Witness for C10: construction with a non-empty supplied history and a
concrete assignment sequence. -/
theorem claim_C10_witness :
    (applyStates lw9 seqW).state_history ≠ [] ∧
    (applyStates lw9 seqW).state_history.getLast?.map HistEntry.state =
      some (applyStates lw9 seqW).state ∧
    ∀ now2 : Int, (Launch.touch_history now2 (applyStates lw9 seqW)).isSome :=
  claim_C10 env0 4 "RUNNING" "d" none none none none
    (some [⟨"READY", 0, 0⟩]) none none seqW lw9 rfl

/-- The claim's reading of last_pinged: the updated_at of the RUNNING
entry that was updated most recently (the latest updated_at among RUNNING
entries). -/
def mruRunningUpdated (l : Launch) : Option Int :=
  ((l.state_history.filter (fun e => e.state == "RUNNING")).map HistEntry.updated_at).max?

/-- What the code computes: the updated_at of the first RUNNING entry in
history order. -/
def firstRunningUpdated (l : Launch) : Option Int :=
  (l.state_history.find? (fun e => e.state == "RUNNING")).map HistEntry.updated_at

def lc5 : Launch := Launch.mk "RUNNING" "d" none "h" "i" none
  [⟨"RUNNING", 0, 5⟩, ⟨"FIZZLED", 7, 7⟩, ⟨"RUNNING", 10, 20⟩] none none

/-- Counterexample to C5 as stated: a constructible launch with two
RUNNING entries where last_pinged returns the first entry's updated_at
(5), not the most recently updated one (20). -/
theorem claim_C5_counterexample :
    Launch_init env0 0 "RUNNING" "d" none (some "h") (some "i") none
      (some [⟨"RUNNING", 0, 5⟩, ⟨"FIZZLED", 7, 7⟩, ⟨"RUNNING", 10, 20⟩]) none none =
      Except.ok lc5 ∧
    mruRunningUpdated lc5 = some 20 ∧
    Launch.last_pinged lc5 = some 5 ∧
    Launch.last_pinged lc5 ≠ mruRunningUpdated lc5 :=
  ⟨rfl, rfl, rfl, by decide⟩

/-- Claim C5 (amended): last_pinged returns the updated_at of the first
RUNNING entry in history order; when at most one RUNNING entry exists
this coincides with the most recently updated one. -/
theorem claim_C5 (l : Launch) : Launch.last_pinged l = firstRunningUpdated l := by
  unfold Launch.last_pinged Launch.get_time firstRunningUpdated
  have hp : (fun e : HistEntry => (["RUNNING"] : List String).contains e.state)
      = (fun e : HistEntry => e.state == "RUNNING") := by
    funext e
    cases hb : e.state == "RUNNING"
    · simp [List.contains, hb]
      intro hcon
      rw [hcon] at hb
      simp at hb
    · simp [List.contains, hb]
      exact eq_of_beq hb
  rw [hp]
  cases hf : l.state_history.find? (fun e => e.state == "RUNNING") <;> simp [hf]

/-- Claim C3: from_dict after to_dict reproduces the object, for task
contracts unconditionally and for action records, workflow steps and
launch records that satisfy the data model (wf). -/
theorem claim_C3 (env : Env) (now : Int) (t : FireTask) (a : FWAction) (f : FireWork)
    (l : Launch) :
    FireTask.from_dict (FireTask.to_dict t) = some t ∧
    (FWAction.wf env a → FWAction.from_dict env now (FWAction.to_dict a) = some a) ∧
    (FireWork.wf env f → FireWork.from_dict env now (FireWork.to_dict f) = some f) ∧
    (Launch.wf env l → Launch.from_dict env now (Launch.to_dict l) = some l) := by
  refine ⟨firetask_roundtrip t, ?_, ?_, ?_⟩
  · intro hw
    exact (roundtripF env now (FWAction.to_dict a).fsize).1 a hw le_rfl
  · intro hw
    exact (roundtripF env now (FireWork.to_dict f).fsize).2.1 f hw le_rfl
  · intro hw
    exact (roundtripF env now (Launch.to_dict l).fsize).2.2.1 l hw le_rfl

def task0 : FireTask := ⟨[("x", Value.int 1)]⟩

def ln0 : Launch := Launch.mk "RUNNING" "d" (some ⟨[("name", Value.str "w")]⟩) "h" "i" none
  [⟨"RUNNING", 0, 0⟩] (some 7) (some 1)

def fw0 : FireWork := FireWork_init 0 (TasksArg.many [task0]) none 1 (some [ln0]) "READY" (some 2)

def act0 : FWAction := FWAction.mk "CREATE" [("k", Value.str "v")]
  [("create_fw", MSVal.fw fw0)]

def lnA : Launch := Launch.mk "COMPLETED" "d2" none "h" "i" (some act0)
  [⟨"COMPLETED", 1, 1⟩] none none

theorem ln0_wf : Launch.wf env0 ln0 := by
  unfold ln0 Launch.wf
  refine ⟨by decide, rfl, ?_, ?_, trivial⟩ <;> intro hc <;> exact absurd hc (by decide)

theorem fw0_wf : FireWork.wf env0 fw0 := by
  unfold fw0 FireWork_init FireWork.wf
  exact ⟨rfl, ln0_wf, trivial⟩

theorem act0_wf : FWAction.wf env0 act0 := by
  unfold act0 FWAction.wf
  refine ⟨by decide, by simp, ⟨rfl, fw0_wf⟩, trivial⟩

theorem lnA_wf : Launch.wf env0 lnA := by
  unfold lnA Launch.wf
  refine ⟨by decide, rfl, ?_, ?_, act0_wf⟩ <;> intro hc <;> exact absurd hc (by decide)

/-- Witness for C3 at concrete nested objects: a task, an action with an
embedded workflow step, a workflow step with a launch, a launch with an
action. -/
theorem claim_C3_witness :
    FireTask.from_dict (FireTask.to_dict task0) = some task0 ∧
    FWAction.from_dict env0 0 (FWAction.to_dict act0) = some act0 ∧
    FireWork.from_dict env0 0 (FireWork.to_dict fw0) = some fw0 ∧
    Launch.from_dict env0 0 (Launch.to_dict lnA) = some lnA := by
  obtain ⟨h1, h2, h3, h4⟩ := claim_C3 env0 0 task0 act0 fw0 lnA
  exact ⟨h1, h2 act0_wf, h3 fw0_wf, h4 lnA_wf⟩

/-- Claim C6 (amended): deserializing a workflow-step storage-form
mapping with a non-empty launches id list does not succeed: launch
deserialization rejects the integer ids, so from_dict fails instead of
exposing them. -/
theorem claim_C6 (env : Env) (now : Int) (f : FireWork) (hne : f.launches ≠ []) :
    FireWork.from_dict env now (FireWork.to_db_dict f) = none := by
  cases f with
  | mk tasks spec fid ls st cat =>
    simp only [FireWork.launches] at hne
    cases ls with
    | nil => exact absurd rfl hne
    | cons l rest =>
      by_cases hst : st = "WAITING"
      · subst hst
        simp only [FireWork.to_db_dict, FireWork.to_dict, FireWork.state, FireWork.launches,
          List.length_cons, Nat.zero_lt_succ, if_true, ne_eq, not_true_eq_false, if_false,
          ite_true, ite_false, List.append_nil, List.cons_append, List.nil_append,
          List.map_cons, setKey, String.reduceEq, reduceIte, ite_self]
        simp only [FireWork.from_dict, Value.fsize, FireWork.fromDictF, getKey,
          String.reduceEq, reduceIte, if_true, if_false]
        cases hgt : getKey "_tasks" spec with
        | none => simp [hgt]
        | some tv =>
          cases tv with
          | list tl =>
            cases htf : tasksFromValues tl with
            | none => simp [hgt, htf]
            | some tasks =>
              simp [hgt, htf, parseFwId, parseState, parseCreatedAt, getKey,
                launchListF_scalar_head]
          | null => simp [hgt]
          | str s => simp [hgt]
          | int n => simp [hgt]
          | time t => simp [hgt]
          | dict dd => simp [hgt]
      · simp only [FireWork.to_db_dict, FireWork.to_dict, FireWork.state, FireWork.launches,
          List.length_cons, Nat.zero_lt_succ, if_true, ne_eq, hst, not_false_eq_true,
          ite_true, ite_false, List.append_nil, List.cons_append, List.nil_append,
          List.map_cons, setKey, String.reduceEq, reduceIte, ite_self]
        simp only [FireWork.from_dict, Value.fsize, FireWork.fromDictF, getKey,
          String.reduceEq, reduceIte, if_true, if_false]
        cases hgt : getKey "_tasks" spec with
        | none => simp [hgt]
        | some tv =>
          cases tv with
          | list tl =>
            cases htf : tasksFromValues tl with
            | none => simp [hgt, htf]
            | some tasks =>
              simp [hgt, htf, parseFwId, parseState, parseCreatedAt, getKey,
                launchListF_scalar_head]
          | null => simp [hgt]
          | str s => simp [hgt]
          | int n => simp [hgt]
          | time t => simp [hgt]
          | dict dd => simp [hgt]

def l61 : Launch := Launch.mk "READY" "d" none "h" "i" none [⟨"READY", 0, 0⟩] (some 61) (some 3)

def l62 : Launch := Launch.mk "READY" "d" none "h" "i" none [⟨"READY", 0, 0⟩] (some 62) (some 3)

def l63 : Launch := Launch.mk "READY" "d" none "h" "i" none [⟨"READY", 0, 0⟩] (some 63) (some 3)

def fw6 : FireWork := FireWork_init 0 (TasksArg.many [task0]) none 3
  (some [l61, l62, l63]) "READY" (some 2)

/-- Counterexample to C6 as stated: the storage form of a step with three
launches carries exactly the three integer ids, yet from_dict fails on it
instead of succeeding. -/
theorem claim_C6_counterexample :
    (match FireWork.to_db_dict fw6 with
     | Value.dict d => getKey "launches" d
     | _ => none) = some (Value.list [Value.int 61, Value.int 62, Value.int 63]) ∧
    FireWork.from_dict env0 0 (FireWork.to_db_dict fw6) = none :=
  ⟨rfl, rfl⟩

/-- Witness for the amended C6 at a concrete storage mapping. -/
theorem claim_C6_witness : FireWork.from_dict env0 7 (FireWork.to_db_dict fw6) = none :=
  claim_C6 env0 7 fw6 (by unfold fw6 FireWork_init; simp [FireWork.launches])

/-- An action-record mapping in its serialized shape. -/
def actionDictV (cmd : String) (sd ms : List (String × Value)) : Value :=
  Value.dict [("action", Value.str cmd), ("stored_data", Value.dict sd),
    ("mod_spec", Value.dict ms)]

/-- Claim C7: deserializing an action mapping whose mod_spec holds the
reserved create_fw key yields a live workflow step under that key (not a
raw mapping); without the key, mod_spec is carried through as opaque
data. -/
theorem claim_C7 (env : Env) (now : Int) (cmd : String) (sd ms : List (String × Value)) :
    (∀ f : FireWork, cmd ∈ commands → FireWork.wf env f →
      getKey "create_fw" ms = some (FireWork.to_dict f) →
      FWAction.from_dict env now (actionDictV cmd sd ms) =
        some (FWAction.mk cmd sd
          (setKey "create_fw" (MSVal.fw f) (ms.map (fun p => (p.1, MSVal.plain p.2))))) ∧
      getKey "create_fw"
        (setKey "create_fw" (MSVal.fw f) (ms.map (fun p => (p.1, MSVal.plain p.2)))) =
        some (MSVal.fw f)) ∧
    (cmd ∈ commands → getKey "create_fw" ms = none →
      FWAction.from_dict env now (actionDictV cmd sd ms) =
        some (FWAction.mk cmd sd (ms.map (fun p => (p.1, MSVal.plain p.2))))) := by
  constructor
  · intro f hc hwf hcf
    have hsz : (FireWork.to_dict f).fsize ≤
        vdictSize [("action", Value.str cmd), ("stored_data", Value.dict sd),
          ("mod_spec", Value.dict ms)] := by
      have h2 := getKey_fsize hcf
      simp [vdictSize, Value.fsize]
      omega
    have h3 := (roundtripF env now
      (vdictSize [("action", Value.str cmd), ("stored_data", Value.dict sd),
        ("mod_spec", Value.dict ms)])).2.1 f hwf hsz
    refine ⟨?_, getKey_setKey_self _ _ _⟩
    simp only [actionDictV]
    rw [fwaction_from_dict_on_dict]
    simp [FWAction.fromDictF, getKey, hcf, h3, FWAction_init, hc, Except.toOption]
  · intro hc hcf
    simp only [actionDictV]
    rw [fwaction_from_dict_on_dict]
    simp [FWAction.fromDictF, getKey, hcf, FWAction_init, hc, Except.toOption]

/-- Witness for C7: a CREATE mapping holding a serialized workflow step
deserializes to a live step under create_fw; a MODIFY mapping without the
key keeps its mod_spec opaque. -/
theorem claim_C7_witness :
    FWAction.from_dict env0 0 (actionDictV "CREATE" [] [("create_fw", FireWork.to_dict fw0)]) =
      some (FWAction.mk "CREATE" []
        (setKey "create_fw" (MSVal.fw fw0)
          ([("create_fw", FireWork.to_dict fw0)].map (fun p => (p.1, MSVal.plain p.2))))) ∧
    getKey "create_fw"
      (setKey "create_fw" (MSVal.fw fw0)
        ([("create_fw", FireWork.to_dict fw0)].map (fun p => (p.1, MSVal.plain p.2)))) =
      some (MSVal.fw fw0) ∧
    FWAction.from_dict env0 0 (actionDictV "MODIFY" [] [("a", Value.int 1)]) =
      some (FWAction.mk "MODIFY" [] [("a", MSVal.plain (Value.int 1))]) := by
  obtain ⟨h1, _⟩ := claim_C7 env0 0 "CREATE" [] [("create_fw", FireWork.to_dict fw0)]
  obtain ⟨ha, hb⟩ := h1 fw0 (by decide) fw0_wf rfl
  refine ⟨ha, hb, ?_⟩
  have hm := (claim_C7 env0 0 "MODIFY" [] [("a", Value.int 1)]).2 (by decide) rfl
  simpa using hm

/-- Claim C8: the reserved spec key always equals the serialized task
sequence: it holds after every construction (any tasks and spec arguments,
a stale reserved key being overwritten), and for every step produced by
deserialization; the remaining core operations do not mutate a step. -/
theorem claim_C8 (env : Env) (now : Int) (targ : TasksArg)
    (sp : Option (List (String × Value))) (fid : Int) (laun : Option (List Launch))
    (st : String) (cat : Option Int) :
    getKey "_tasks" (FireWork_init now targ sp fid laun st cat).spec =
      some (tasksSer (FireWork_init now targ sp fid laun st cat).tasks) ∧
    ∀ (v : Value) (f' : FireWork), FireWork.from_dict env now v = some f' →
      getKey "_tasks" f'.spec = some (tasksSer f'.tasks) := by
  refine ⟨init_spec_tasks now targ sp fid laun st cat, ?_⟩
  intro v f' hm
  cases v with
  | null => simp [FireWork.from_dict, Value.fsize, FireWork.fromDictF] at hm
  | str s => simp [FireWork.from_dict, Value.fsize, FireWork.fromDictF] at hm
  | int n => simp [FireWork.from_dict, Value.fsize, FireWork.fromDictF] at hm
  | time t => simp [FireWork.from_dict, Value.fsize, FireWork.fromDictF] at hm
  | list vs => simp [FireWork.from_dict, Value.fsize, FireWork.fromDictF] at hm
  | dict d =>
    rw [firework_from_dict_on_dict] at hm
    simp only [FireWork.fromDictF] at hm
    repeat' split at hm
    all_goals try simp only [Option.some.injEq, reduceCtorEq] at hm
    all_goals first
      | exact absurd hm not_false
      | (subst hm; exact init_spec_tasks _ _ _ _ _ _ _)

def fwD : Value := Value.dict [("spec", Value.dict [("_tasks", Value.list [])])]

def fw8 : FireWork := FireWork.mk [] [("_tasks", Value.list [])] (-1) [] "WAITING" 0

/-- Witness for C8: a construction with a stale reserved key, and a step
obtained from deserialization. -/
theorem claim_C8_witness :
    getKey "_tasks" (FireWork_init 0 (TasksArg.single task0)
        (some [("y", Value.int 2), ("_tasks", Value.str "stale")]) 5 none "WAITING" none).spec =
      some (tasksSer (FireWork_init 0 (TasksArg.single task0)
        (some [("y", Value.int 2), ("_tasks", Value.str "stale")]) 5 none "WAITING" none).tasks) ∧
    getKey "_tasks" fw8.spec = some (tasksSer fw8.tasks) := by
  obtain ⟨h1, h2⟩ := claim_C8 env0 0 (TasksArg.single task0)
    (some [("y", Value.int 2), ("_tasks", Value.str "stale")]) 5 none "WAITING" none
  exact ⟨h1, h2 fwD fw8 rfl⟩
